import Mathlib

/-!
Verification of the MoCo contrastive training loop in `src/train.py`
(repository joshr17/SimCLR).

The embedding translates the training-loop control flow, the FIFO feature
dictionary (queue), the shuffle-index generator, the momentum update, and the
contrastive loss assembly into Lean definitions, and proves the frozen claims
about them.

Feature vectors are kept abstract (a type parameter) wherever the code only
moves them around; the numeric loss assembly of lines 46-51 is embedded over
the reals.  The helper module `utils.py` and the encoder module `model.py` are
not part of `src/`; the queue operations `utils.queue_data`,
`utils.dequeue_data` and the parameter update `utils.momentum_update` are
modelled from the spec, as marked on each definition.
-/

namespace MoCo

/-- Modelled from the spec: `utils.queue_data(queue, k)` (utils.py is not in
src/).  Spec 4.3: `enqueue(batch)` appends a batch of embedding vectors to the
end of the sequence.  Called at src/train.py line 63. -/
def queue_data {α : Type} (queue batch : List α) : List α :=
  queue ++ batch

/-- Modelled from the spec: `utils.dequeue_data(queue, K)` (utils.py is not in
src/).  Spec 4.3: `evict_to_capacity(capacity)`: if sequence length >
capacity, removes entries from the front until length == capacity.  Called at
src/train.py line 64. -/
def dequeue_data {α : Type} (queue : List α) (cap : Nat) : List α :=
  if cap < queue.length then queue.drop (queue.length - cap) else queue

theorem dequeue_data_eq_drop {α : Type} (l : List α) (cap : Nat) :
    dequeue_data l cap = l.drop (l.length - cap) := by
  unfold dequeue_data
  by_cases h : cap < l.length
  · simp [h]
  · have hz : l.length - cap = 0 := Nat.sub_eq_zero_of_le (Nat.le_of_not_lt h)
    simp [h, hz]

theorem dequeue_data_length {α : Type} (l : List α) (cap : Nat) :
    (dequeue_data l cap).length = min l.length cap := by
  rw [dequeue_data_eq_drop, List.length_drop]
  omega

theorem dequeue_data_le_cap {α : Type} (l : List α) (cap : Nat) :
    (dequeue_data l cap).length ≤ cap := by
  rw [dequeue_data_length]; omega

/-- The last `cap` entries of a list (all of it when it is shorter). -/
def lastEntries {α : Type} (cap : Nat) (l : List α) : List α :=
  l.drop (l.length - cap)

theorem dequeue_data_eq_lastEntries {α : Type} (l : List α) (cap : Nat) :
    dequeue_data l cap = lastEntries cap l :=
  dequeue_data_eq_drop l cap

theorem lastEntries_suffix {α : Type} (cap : Nat) (l : List α) :
    List.IsSuffix (lastEntries cap l) l :=
  List.drop_suffix _ _

theorem lastEntries_length {α : Type} (cap : Nat) (l : List α) :
    (lastEntries cap l).length = min l.length cap := by
  unfold lastEntries
  rw [List.length_drop]; omega

theorem lastEntries_of_le {α : Type} {cap : Nat} {l : List α}
    (h : l.length ≤ cap) : lastEntries cap l = l := by
  unfold lastEntries
  have : l.length - cap = 0 := by omega
  simp [this]

/-- Taking the last `cap` entries of a sufficiently long suffix gives the same
result as taking them from the whole list. -/
theorem lastEntries_of_suffix {α : Type} {cap : Nat} {l₁ l₂ : List α}
    (hs : List.IsSuffix l₂ l₁) (hlen : cap ≤ l₂.length) :
    lastEntries cap l₁ = lastEntries cap l₂ := by
  obtain ⟨pre, rfl⟩ := hs
  unfold lastEntries
  rw [List.length_append]
  rw [List.drop_append_eq_append_drop]
  have h1 : pre.length + l₂.length - cap - pre.length = l₂.length - cap := by omega
  have h2 : pre.length ≤ pre.length + l₂.length - cap := by omega
  rw [List.drop_eq_nil_of_le h2, h1, List.nil_append]

theorem lastEntries_append_left {α : Type} (cap : Nat) (l ys : List α) :
    lastEntries cap (lastEntries cap l ++ ys) = lastEntries cap (l ++ ys) := by
  by_cases h : l.length ≤ cap
  · rw [lastEntries_of_le h]
  · have hs : List.IsSuffix (lastEntries cap l ++ ys) (l ++ ys) := by
      obtain ⟨t, ht⟩ := lastEntries_suffix cap l
      exact ⟨t, by rw [← List.append_assoc, ht]⟩
    have hlen : cap ≤ (lastEntries cap l ++ ys).length := by
      rw [List.length_append, lastEntries_length]
      omega
    exact (lastEntries_of_suffix hs hlen).symm

/-- The observable actions of one training step of `train`
(src/train.py lines 32-64), in program order: query-encoder forward (line 37),
shuffled-BN key pass (lines 40-43), and — only in the ready branch (lines
45-61) — the contrastive loss computation (lines 46-51), the optimizer
gradient step (lines 53-55) and the momentum update (line 60); finally the
unconditional enqueue (line 63) and eviction (line 64). -/
inductive Event
  | encodeQ
  | shuffleBN
  | lossCompute
  | optimStep
  | momentum (β : ℚ)
  | enqueue
  | evict
  deriving DecidableEq

/-- The mutable per-epoch state of `train` (src/train.py lines 30-31):
the queue of key vectors, the examples-seen counter `n_data`, and the
accumulated `total_loss`. -/
structure StepState (α : Type) where
  queue : List α
  nData : Nat
  totalLoss : ℚ
  deriving DecidableEq

/-- The state at the start of an epoch (src/train.py lines 30-31):
`total_loss, n_data = 0, 0` and `queue = torch.zeros((0, features_dim))`,
i.e. the empty queue.  This initialisation happens inside `train`, so it runs
again on every call. -/
def epochStart (α : Type) : StepState α :=
  ⟨[], 0, 0⟩

/-- One training step of `train` (src/train.py lines 32-64) together with its
event trace.  `K` is the queue length captured before this step's enqueue
(line 35).  In the ready branch (`K >= dictionary_size`, line 45) the loss is
computed, the optimizer steps, `n_data += N` and `total_loss += loss * N`
(lines 57-58) and the momentum update runs (line 60).  Unconditionally the
key batch `k` is enqueued and the queue evicted to capacity (lines 63-64).
The numeric value of the loss is passed in as `lossVal`; its computation from
the embeddings (lines 46-51) is embedded separately as `sourceLoss` below. -/
def trainStep {α : Type} (cap : Nat) (β lossVal : ℚ) (s : StepState α)
    (k : List α) : StepState α × List Event :=
  let K := s.queue.length
  let N := k.length
  let s1 : StepState α :=
    if cap ≤ K then
      { queue := s.queue, nData := s.nData + N,
        totalLoss := s.totalLoss + lossVal * (N : ℚ) }
    else s
  ({ queue := dequeue_data (queue_data s1.queue k) cap,
     nData := s1.nData, totalLoss := s1.totalLoss },
    [Event.encodeQ, Event.shuffleBN] ++
      (if cap ≤ K then [Event.lossCompute, Event.optimStep, Event.momentum β]
        else []) ++
      [Event.enqueue, Event.evict])

/-- Folding the training steps of one epoch over the mini-batches
(src/train.py lines 32-64); `t` is the index of the next step, used to select
that step's loss value. -/
def runSteps {α : Type} (cap : Nat) (β : ℚ) (lossOf : Nat → ℚ) :
    StepState α → Nat → List (List α) → StepState α
  | s, _, [] => s
  | s, t, b :: bs =>
      runSteps cap β lossOf (trainStep cap β (lossOf t) s b).1 (t + 1) bs

/-- The sequence of pre-step states of one epoch: entry `t` is the state seen
at the start of step `t`, and the final entry is the state after the last
step. -/
def stepStates {α : Type} (cap : Nat) (β : ℚ) (lossOf : Nat → ℚ) :
    StepState α → Nat → List (List α) → List (StepState α)
  | s, _, [] => [s]
  | s, t, b :: bs =>
      s :: stepStates cap β lossOf (trainStep cap β (lossOf t) s b).1 (t + 1) bs

/-- One call of `train` (src/train.py lines 28-66): initialise the totals and
the queue (lines 30-31), run the steps, and return `total_loss / n_data`
(line 66).  When `n_data = 0` the Python division `0 / 0` raises
`ZeroDivisionError`, modelled as `none`. -/
def trainEpoch {α : Type} (cap : Nat) (β : ℚ) (lossOf : Nat → ℚ)
    (batches : List (List α)) : Option ℚ :=
  let s := runSteps cap β lossOf (epochStart α) 0 batches
  if s.nData = 0 then none else some (s.totalLoss / (s.nData : ℚ))

/-- The event trace of one epoch: the concatenation of the step traces. -/
def epochEvents {α : Type} (cap : Nat) (β : ℚ) (lossOf : Nat → ℚ) :
    StepState α → Nat → List (List α) → List Event
  | _, _, [] => []
  | s, t, b :: bs =>
      (trainStep cap β (lossOf t) s b).2 ++
        epochEvents cap β lossOf (trainStep cap β (lossOf t) s b).1 (t + 1) bs

/-- The momentum-relevant event trace of the whole program (src/train.py
main block): the single initialisation call
`utils.momentum_update(model_q, model_k, beta=0.0)` (line 121) followed by
the epoch loop (lines 129-130), each epoch contributing its step traces with
the runtime momentum coefficient `β`. -/
def programTrace {α : Type} (cap : Nat) (β : ℚ) (lossOf : Nat → ℚ)
    (epochBatches : List (List (List α))) : List Event :=
  Event.momentum 0 ::
    (epochBatches.map fun bs => epochEvents cap β lossOf (epochStart α) 0 bs).flatten

/-- The pre-step state sequences of the epochs the run actually executes
(src/train.py lines 129-130): `train` is called once per epoch, and each call
starts from `epochStart` again because the queue is initialised inside
`train` (line 31).  When a call of `train` ends with `n_data = 0`, the
division at line 66 raises `ZeroDivisionError` and the run aborts: that
epoch's steps still ran, but no later epoch executes. -/
def epochStatesOfRun {α : Type} (cap : Nat) (β : ℚ) (lossOf : Nat → ℚ) :
    List (List (List α)) → List (List (StepState α))
  | [] => []
  | bs :: ebs =>
      if (runSteps cap β lossOf (epochStart α) 0 bs).nData = 0 then
        [stepStates cap β lossOf (epochStart α) 0 bs]
      else
        stepStates cap β lossOf (epochStart α) 0 bs ::
          epochStatesOfRun cap β lossOf ebs

/-- Modelled from the spec: `utils.momentum_update(model_q, model_k, beta)`
(utils.py is not in src/).  Spec 4.1: given query parameters θ_q and key
parameters θ_k in one-to-one correspondence, update every key parameter:
θ_k ← β·θ_k + (1−β)·θ_q.  Parameters are indexed by an abstract index type. -/
def momentum_update {ι : Type} (θq θk : ι → ℚ) (β : ℚ) : ι → ℚ :=
  fun i => β * θk i + (1 - β) * θq i

/-- The configuration values read by the argument parser
(src/train.py lines 102-109). -/
structure Config where
  batch_size : Int
  epochs : Int
  features_dim : Int
  dictionary_size : Int
  deriving DecidableEq

/-- Configuration construction (src/train.py lines 97-109): the parser only
constrains each argument to be an integer and the assignments at lines
108-109 copy the values; no range or positivity validation exists anywhere on
this path, so construction always succeeds.  The `Except` return type makes
the absence of a rejection path statable. -/
def makeConfig (batch_size epochs features_dim dictionary_size : Int) :
    Except String Config :=
  Except.ok ⟨batch_size, epochs, features_dim, dictionary_size⟩

/-- The temperature of `train` (src/train.py line 28): the default `0.07`;
`train` performs no check on it and no caller ever passes another value. -/
def train_temp_default : ℚ := 7 / 100

theorem trainStep_queue {α : Type} (cap : Nat) (β lossVal : ℚ)
    (s : StepState α) (k : List α) :
    (trainStep cap β lossVal s k).1.queue = dequeue_data (queue_data s.queue k) cap := by
  unfold trainStep
  by_cases h : cap ≤ s.queue.length <;> simp [h]

theorem runSteps_queue {α : Type} (cap : Nat) (β : ℚ) (lossOf : Nat → ℚ) :
    ∀ (bs : List (List α)) (s : StepState α) (t : Nat),
      s.queue.length ≤ cap →
      (runSteps cap β lossOf s t bs).queue = lastEntries cap (s.queue ++ bs.flatten)
  | [], s, t, hq => by
      simp [runSteps, lastEntries_of_le hq]
  | b :: bs, s, t, hq => by
      rw [runSteps]
      have hstep : (trainStep cap β (lossOf t) s b).1.queue =
          lastEntries cap (s.queue ++ b) := by
        rw [trainStep_queue, dequeue_data_eq_lastEntries, queue_data]
      have hlen : (trainStep cap β (lossOf t) s b).1.queue.length ≤ cap := by
        rw [trainStep_queue]; exact dequeue_data_le_cap _ _
      rw [runSteps_queue cap β lossOf bs _ (t + 1) hlen, hstep, lastEntries_append_left,
        List.flatten_cons, List.append_assoc]

theorem mem_lossCompute_iff {α : Type} (cap : Nat) (β lossVal : ℚ)
    (s : StepState α) (k : List α) :
    Event.lossCompute ∈ (trainStep cap β lossVal s k).2 ↔ cap ≤ s.queue.length := by
  unfold trainStep
  by_cases h : cap ≤ s.queue.length <;> simp [h]

theorem runSteps_queue_le (α : Type) (cap : Nat) (β : ℚ) (lossOf : Nat → ℚ)
    (bs : List (List α)) (t : Nat) :
    (runSteps cap β lossOf (epochStart α) t bs).queue.length ≤ cap := by
  have hq : (epochStart α).queue.length ≤ cap := by simp [epochStart]
  rw [runSteps_queue cap β lossOf bs (epochStart α) t hq, lastEntries_length]
  omega

theorem runSteps_append (α : Type) (cap : Nat) (β : ℚ) (lossOf : Nat → ℚ) :
    ∀ (xs ys : List (List α)) (s : StepState α) (t : Nat),
      runSteps cap β lossOf s t (xs ++ ys) =
        runSteps cap β lossOf (runSteps cap β lossOf s t xs) (t + xs.length) ys
  | [], ys, s, _ => by simp [runSteps]
  | x :: xs, ys, s, t => by
      rw [List.cons_append, runSteps, runSteps,
        runSteps_append α cap β lossOf xs ys _ (t + 1)]
      simp only [List.length_cons]
      congr 1
      omega

theorem runSteps_take_succ (α : Type) (cap : Nat) (β : ℚ) (lossOf : Nat → ℚ)
    (batches : List (List α)) (t : Nat) (ht : t < batches.length) :
    runSteps cap β lossOf (epochStart α) 0 (batches.take (t + 1)) =
      (trainStep cap β (lossOf t)
        (runSteps cap β lossOf (epochStart α) 0 (batches.take t))
        (batches.get ⟨t, ht⟩)).1 := by
  have hsplit : batches.take (t + 1) = batches.take t ++ [batches.get ⟨t, ht⟩] := by
    rw [← List.take_concat_get batches t ht, List.concat_eq_append,
      List.get_eq_getElem]
  rw [hsplit, runSteps_append]
  have hlen : (batches.take t).length = t := by
    rw [List.length_take]
    omega
  rw [hlen, Nat.zero_add]
  rfl

/-- C1: in every training step, the contrastive loss computation and the
optimizer gradient step occur if and only if the dictionary is ready (queue
length, captured before the enqueue, at least the capacity); the momentum
update occurs only — and always — in that same ready branch; enqueueing the
key batch and evicting to capacity happen unconditionally, on the state, in
every step. -/
theorem step_gating (α : Type) (cap : Nat) (β lossVal : ℚ) (s : StepState α)
    (k : List α) :
    (Event.lossCompute ∈ (trainStep cap β lossVal s k).2 ↔ cap ≤ s.queue.length) ∧
    (Event.optimStep ∈ (trainStep cap β lossVal s k).2 ↔ cap ≤ s.queue.length) ∧
    (∀ β' : ℚ, Event.momentum β' ∈ (trainStep cap β lossVal s k).2 →
      cap ≤ s.queue.length) ∧
    (cap ≤ s.queue.length → Event.momentum β ∈ (trainStep cap β lossVal s k).2) ∧
    Event.enqueue ∈ (trainStep cap β lossVal s k).2 ∧
    Event.evict ∈ (trainStep cap β lossVal s k).2 ∧
    (trainStep cap β lossVal s k).1.queue = dequeue_data (queue_data s.queue k) cap := by
  unfold trainStep
  by_cases h : cap ≤ s.queue.length <;> simp [h]

/-- C1 witness: at capacity 2 with a queue of length 1 the step is not ready,
so the gating equivalences are checked at a concrete non-ready input. -/
theorem step_gating_w :
    (Event.lossCompute ∈ (trainStep 2 (1/2) 3 (⟨[5], 0, 0⟩ : StepState Nat) [7]).2 ↔
      2 ≤ (⟨[5], 0, 0⟩ : StepState Nat).queue.length) ∧
    (Event.optimStep ∈ (trainStep 2 (1/2) 3 (⟨[5], 0, 0⟩ : StepState Nat) [7]).2 ↔
      2 ≤ (⟨[5], 0, 0⟩ : StepState Nat).queue.length) ∧
    (∀ β' : ℚ, Event.momentum β' ∈ (trainStep 2 (1/2) 3 (⟨[5], 0, 0⟩ : StepState Nat) [7]).2 →
      2 ≤ (⟨[5], 0, 0⟩ : StepState Nat).queue.length) ∧
    (2 ≤ (⟨[5], 0, 0⟩ : StepState Nat).queue.length →
      Event.momentum (1/2) ∈ (trainStep 2 (1/2) 3 (⟨[5], 0, 0⟩ : StepState Nat) [7]).2) ∧
    Event.enqueue ∈ (trainStep 2 (1/2) 3 (⟨[5], 0, 0⟩ : StepState Nat) [7]).2 ∧
    Event.evict ∈ (trainStep 2 (1/2) 3 (⟨[5], 0, 0⟩ : StepState Nat) [7]).2 ∧
    (trainStep 2 (1/2) 3 (⟨[5], 0, 0⟩ : StepState Nat) [7]).1.queue =
      dequeue_data (queue_data [5] [7]) 2 :=
  step_gating Nat 2 (1/2) 3 ⟨[5], 0, 0⟩ [7]

/-- C2: starting from the empty per-epoch queue, after any number `t` of
enqueue-then-evict steps whose enqueued vectors total more than the capacity,
the queue has length exactly `cap` and holds exactly the last `cap` enqueued
vectors in their original relative order (the oldest were dropped from the
front). -/
theorem queue_fifo_capacity (α : Type) (cap : Nat) (β : ℚ) (lossOf : Nat → ℚ)
    (batches : List (List α)) (t : Nat)
    (h : cap < ((batches.take t).flatten).length) :
    (runSteps cap β lossOf (epochStart α) 0 (batches.take t)).queue.length = cap ∧
    (runSteps cap β lossOf (epochStart α) 0 (batches.take t)).queue =
      lastEntries cap ((batches.take t).flatten) := by
  have hq : (epochStart α).queue.length ≤ cap := by simp [epochStart]
  have hrun := runSteps_queue cap β lossOf (batches.take t) (epochStart α) 0 hq
  have hnil : (epochStart α).queue ++ (batches.take t).flatten =
      (batches.take t).flatten := by simp [epochStart]
  rw [hnil] at hrun
  refine ⟨?_, hrun⟩
  rw [hrun, lastEntries_length]
  omega

/-- C2 witness: capacity 2, three batches totalling 4 vectors; the queue ends
with exactly the last two vectors, in order. -/
theorem queue_fifo_capacity_w :
    (runSteps 2 (1/2 : ℚ) (fun _ => 0) (epochStart Nat) 0 ([[1, 2], [3], [4]].take 3)).queue.length = 2 ∧
    (runSteps 2 (1/2 : ℚ) (fun _ => 0) (epochStart Nat) 0 ([[1, 2], [3], [4]].take 3)).queue =
      lastEntries 2 (([[1, 2], [3], [4]].take 3).flatten) :=
  queue_fifo_capacity Nat 2 (1/2) (fun _ => 0) [[1, 2], [3], [4]] 3 (by decide)

/-- C6: in every ready (loss-producing) step, every occurrence of the
momentum-update event lies strictly after the occurrence of the optimizer
gradient step in the step's trace. -/
theorem momentum_after_optimizer (α : Type) (cap : Nat) (β lossVal : ℚ)
    (s : StepState α) (k : List α) (h : cap ≤ s.queue.length)
    (i j : Nat) (β' : ℚ)
    (hi : (trainStep cap β lossVal s k).2[i]? = some (Event.momentum β'))
    (hj : (trainStep cap β lossVal s k).2[j]? = some Event.optimStep) :
    j < i := by
  have htr : (trainStep cap β lossVal s k).2 =
      [Event.encodeQ, Event.shuffleBN, Event.lossCompute, Event.optimStep,
        Event.momentum β, Event.enqueue, Event.evict] := by
    unfold trainStep
    simp [h]
  rw [htr] at hi hj
  rcases i with _ | _ | _ | _ | _ | _ | _ | i <;>
    rcases j with _ | _ | _ | _ | _ | _ | _ | j <;>
    simp_all

/-- C6 witness: a ready step at capacity 1 with a one-entry queue; the
momentum event sits at index 4, the optimizer step at index 3. -/
theorem momentum_after_optimizer_w : (3 : Nat) < 4 :=
  momentum_after_optimizer Nat 1 (1/2) 3 ⟨[5], 0, 0⟩ [7] (by decide) 4 3 (1/2)
    (by rfl) (by rfl)

theorem runSteps_nData_const (α : Type) (cap : Nat) (β : ℚ) (lossOf : Nat → ℚ) :
    ∀ (bs : List (List α)) (s : StepState α) (t0 : Nat),
      (∀ t, t < bs.length →
        (runSteps cap β lossOf s t0 (bs.take t)).queue.length < cap) →
      (runSteps cap β lossOf s t0 bs).nData = s.nData
  | [], _, _, _ => rfl
  | b :: bs, s, t0, h => by
      have hs : s.queue.length < cap := by
        have h0 := h 0 (by simp)
        simpa [runSteps] using h0
      have hstep : (trainStep cap β (lossOf t0) s b).1.nData = s.nData := by
        unfold trainStep
        simp [Nat.not_le.mpr hs]
      have htail : ∀ t, t < bs.length →
          (runSteps cap β lossOf (trainStep cap β (lossOf t0) s b).1 (t0 + 1)
            (bs.take t)).queue.length < cap := by
        intro t ht
        have h1 := h (t + 1) (by simp; omega)
        rw [List.take_succ_cons, runSteps] at h1
        exact h1
      rw [runSteps,
        runSteps_nData_const α cap β lossOf bs (trainStep cap β (lossOf t0) s b).1
          (t0 + 1) htail, hstep]

/-- C9: when no step of the epoch reaches dictionary readiness — the queue
length seen at the start of every step stays below the capacity — the
examples-seen counter `n_data` stays 0 and `train` ends in the division
`total_loss / n_data` with `n_data = 0`: the Python `0 / 0` raises
`ZeroDivisionError`, so the epoch yields no value (modelled as `none`). -/
theorem epoch_never_ready_divides_by_zero (α : Type) (cap : Nat) (β : ℚ)
    (lossOf : Nat → ℚ) (batches : List (List α))
    (h : ∀ t, t < batches.length →
      (runSteps cap β lossOf (epochStart α) 0 (batches.take t)).queue.length < cap) :
    (runSteps cap β lossOf (epochStart α) 0 batches).nData = 0 ∧
    trainEpoch cap β lossOf batches = none := by
  have h0 := runSteps_nData_const α cap β lossOf batches (epochStart α) 0 h
  have h0' : (runSteps cap β lossOf (epochStart α) 0 batches).nData = 0 := by
    rw [h0]; rfl
  refine ⟨h0', ?_⟩
  unfold trainEpoch
  simp [h0']

/-- C9 witness: capacity 2 with one batch of exactly 2 vectors (the capacity
equals the number of samples enqueued in the epoch); the only step sees an
empty queue, so no step is ready and the epoch returns no value. -/
theorem epoch_never_ready_divides_by_zero_w :
    (runSteps 2 (1/2 : ℚ) (fun _ => 0) (epochStart Nat) 0 [[1, 2]]).nData = 0 ∧
    trainEpoch 2 (1/2 : ℚ) (fun _ => 0) [[1, 2]] = none :=
  epoch_never_ready_divides_by_zero Nat 2 (1/2) (fun _ => 0) [[1, 2]]
    (by
      intro t ht
      have ht0 : t = 0 := by simpa using ht
      subst ht0
      decide)

/-- C10: readiness is evaluated on the queue length captured before the
current step's enqueue.  For every step `t`: the pre-step queue length never
exceeds the capacity; the step computes a loss exactly when the pre-enqueue
length has reached the capacity, and at every loss-producing step the
negative set (the pre-step queue) has exactly `cap` entries; when the
capacity is positive no loss is produced at step 0; and step `t+1` computes a
loss exactly when the queue after step `t`'s enqueue-and-evict has reached
capacity, so the first loss-producing step is the step after the queue first
reaches capacity. -/
theorem readiness_pre_enqueue (α : Type) (cap : Nat) (β : ℚ) (lossOf : Nat → ℚ)
    (batches : List (List α)) (t : Nat) (ht : t < batches.length) :
    (runSteps cap β lossOf (epochStart α) 0 (batches.take t)).queue.length ≤ cap ∧
    (Event.lossCompute ∈ (trainStep cap β (lossOf t)
        (runSteps cap β lossOf (epochStart α) 0 (batches.take t))
        (batches.get ⟨t, ht⟩)).2 ↔
      cap ≤ (runSteps cap β lossOf (epochStart α) 0 (batches.take t)).queue.length) ∧
    (Event.lossCompute ∈ (trainStep cap β (lossOf t)
        (runSteps cap β lossOf (epochStart α) 0 (batches.take t))
        (batches.get ⟨t, ht⟩)).2 →
      (runSteps cap β lossOf (epochStart α) 0 (batches.take t)).queue.length = cap) ∧
    (0 < cap → Event.lossCompute ∈ (trainStep cap β (lossOf t)
        (runSteps cap β lossOf (epochStart α) 0 (batches.take t))
        (batches.get ⟨t, ht⟩)).2 → t ≠ 0) ∧
    (∀ ht1 : t + 1 < batches.length,
      Event.lossCompute ∈ (trainStep cap β (lossOf (t + 1))
          (runSteps cap β lossOf (epochStart α) 0 (batches.take (t + 1)))
          (batches.get ⟨t + 1, ht1⟩)).2 ↔
        cap ≤ (trainStep cap β (lossOf t)
          (runSteps cap β lossOf (epochStart α) 0 (batches.take t))
          (batches.get ⟨t, ht⟩)).1.queue.length) := by
  have hle := runSteps_queue_le α cap β lossOf (batches.take t) 0
  refine ⟨hle, mem_lossCompute_iff _ _ _ _ _, ?_, ?_, ?_⟩
  · intro hmem
    have := (mem_lossCompute_iff cap β (lossOf t) _ (batches.get ⟨t, ht⟩)).mp hmem
    omega
  · intro hcap hmem ht0
    have hready := (mem_lossCompute_iff cap β (lossOf t) _ (batches.get ⟨t, ht⟩)).mp hmem
    subst ht0
    simp [runSteps, epochStart] at hready
    omega
  · intro ht1
    rw [mem_lossCompute_iff, runSteps_take_succ α cap β lossOf batches t ht]

/-- C10 witness: capacity 1, batches of single vectors; at step 1 the
pre-step queue length is at most the capacity. -/
theorem readiness_pre_enqueue_w :
    (runSteps 1 (1/2 : ℚ) (fun _ => 0) (epochStart Nat) 0 ([[1], [2], [3]].take 1)).queue.length ≤ 1 :=
  (readiness_pre_enqueue Nat 1 (1/2) (fun _ => 0) [[1], [2], [3]] 1 (by decide)).1

theorem stepStates_headD {α : Type} (cap : Nat) (β : ℚ) (lossOf : Nat → ℚ)
    (s d : StepState α) (t : Nat) (bs : List (List α)) :
    (stepStates cap β lossOf s t bs).headD d = s := by
  cases bs <;> rfl

theorem stepStates_getD_succ {α : Type} (cap : Nat) (β : ℚ) (lossOf : Nat → ℚ) :
    ∀ (bs : List (List α)) (s d : StepState α) (t0 t : Nat)
      (ht : t < bs.length),
      (stepStates cap β lossOf s t0 bs).getD (t + 1) d =
        (trainStep cap β (lossOf (t0 + t))
          ((stepStates cap β lossOf s t0 bs).getD t d) (bs.get ⟨t, ht⟩)).1
  | [], _, _, _, t, ht => by simp at ht
  | b :: bs, s, d, t0, 0, _ => by
      cases bs <;> rfl
  | b :: bs, s, d, t0, t + 1, ht => by
      rw [stepStates]
      simp only [List.getD_cons_succ]
      rw [stepStates_getD_succ cap β lossOf bs _ d (t0 + 1) t
        (by simp at ht; omega)]
      have harith : t0 + 1 + t = t0 + (t + 1) := by omega
      rw [harith]
      rfl

theorem epochStatesOfRun_head (α : Type) (cap : Nat) (β : ℚ) (lossOf : Nat → ℚ) :
    ∀ (ebs : List (List (List α))) (l : List (StepState α)),
      l ∈ epochStatesOfRun cap β lossOf ebs →
      l.headD (epochStart α) = epochStart α
  | [], l, h => absurd h (List.not_mem_nil l)
  | bs :: ebs, l, h => by
      rw [epochStatesOfRun] at h
      by_cases hc : (runSteps cap β lossOf (epochStart α) 0 bs).nData = 0
      · rw [if_pos hc] at h
        rcases List.mem_singleton.mp h with rfl
        exact stepStates_headD cap β lossOf (epochStart α) (epochStart α) 0 bs
      · rw [if_neg hc] at h
        rcases List.mem_cons.mp h with rfl | h2
        · exact stepStates_headD cap β lossOf (epochStart α) (epochStart α) 0 bs
        · exact epochStatesOfRun_head α cap β lossOf ebs l h2

/-- The claim of C5 fails: the queue is initialised inside `train`
(src/train.py line 31), and `train` is called once per epoch (line 130), so
the dictionary does not survive an epoch boundary.  Concretely: with capacity
1, epoch 1 (batches [5] then [6]) has a ready step, so it completes with
`n_data = 1` and the run really reaches epoch 2; epoch 1 ends with its
enqueued vector 6 in the queue, yet the queue at the start of epoch 2 is the
freshly initialised empty queue, which does not contain 6. -/
theorem queue_reset_between_epochs :
    (runSteps 1 (1/2 : ℚ) (fun _ => 0) (epochStart Nat) 0 [[5], [6]]).queue = [6] ∧
    (epochStatesOfRun 1 (1/2 : ℚ) (fun _ => 0) [[[5], [6]], [[7]]]).length = 2 ∧
    ((epochStatesOfRun 1 (1/2 : ℚ) (fun _ => 0) [[[5], [6]], [[7]]]).getD 1 []).headD
      (epochStart Nat) = epochStart Nat ∧
    6 ∉ (((epochStatesOfRun 1 (1/2 : ℚ) (fun _ => 0) [[[5], [6]], [[7]]]).getD 1 []).headD
      (epochStart Nat)).queue := by
  refine ⟨rfl, rfl, rfl, ?_⟩
  decide

/-- C5 as amended: the dictionary persists within an epoch — each state is
obtained from the previous one by the training step, never reset between
steps — but every epoch the run actually executes (every call of `train`)
begins from the freshly initialised empty queue, so entries enqueued in one
epoch are not available at the start of the next executed epoch. -/
theorem epoch_queue_lifecycle (α : Type) (cap : Nat) (β : ℚ) (lossOf : Nat → ℚ)
    (ebs : List (List (List α))) (e : Nat)
    (he : e < (epochStatesOfRun cap β lossOf ebs).length) :
    ((epochStatesOfRun cap β lossOf ebs).getD e []).headD (epochStart α) =
      epochStart α ∧
    (∀ (bs : List (List α)) (t : Nat) (ht : t < bs.length),
      (stepStates cap β lossOf (epochStart α) 0 bs).getD (t + 1) (epochStart α) =
        (trainStep cap β (lossOf t)
          ((stepStates cap β lossOf (epochStart α) 0 bs).getD t (epochStart α))
          (bs.get ⟨t, ht⟩)).1) := by
  constructor
  · have h1 : (epochStatesOfRun cap β lossOf ebs).getD e [] ∈
        epochStatesOfRun cap β lossOf ebs := by
      rw [List.getD_eq_getElem _ _ he]
      exact List.getElem_mem he
    exact epochStatesOfRun_head α cap β lossOf ebs _ h1
  · intro bs t ht
    have h := stepStates_getD_succ cap β lossOf bs (epochStart α) (epochStart α) 0 t ht
    simpa using h

/-- C5 amended-claim witness: the second executed epoch of a two-epoch run
(capacity 1, so epoch 1 has a ready step and completes) starts from the
freshly initialised state. -/
theorem epoch_queue_lifecycle_w :
    ((epochStatesOfRun 1 (1/2 : ℚ) (fun _ => 0) [[[5], [6]], [[7]]]).getD 1 []).headD
      (epochStart Nat) = epochStart Nat :=
  (epoch_queue_lifecycle Nat 1 (1/2) (fun _ => 0) [[[5], [6]], [[7]]] 1
    (by decide)).1

theorem step_momentum_values {α : Type} (cap : Nat) (β lossVal : ℚ)
    (s : StepState α) (k : List α) (β' : ℚ)
    (h : Event.momentum β' ∈ (trainStep cap β lossVal s k).2) : β' = β := by
  unfold trainStep at h
  by_cases hr : cap ≤ s.queue.length <;> simp [hr] at h
  exact h

theorem epoch_momentum_values {α : Type} (cap : Nat) (β : ℚ) (lossOf : Nat → ℚ) :
    ∀ (bs : List (List α)) (s : StepState α) (t : Nat) (β' : ℚ),
      Event.momentum β' ∈ epochEvents cap β lossOf s t bs → β' = β
  | [], _, _, _, h => by simp [epochEvents] at h
  | b :: bs, s, t, β', h => by
      rw [epochEvents, List.mem_append] at h
      rcases h with h | h
      · exact step_momentum_values cap β (lossOf t) s b β' h
      · exact epoch_momentum_values cap β lossOf bs _ (t + 1) β' h

/-- C7: a momentum update with coefficient β = 0 makes every key parameter
exactly the corresponding query parameter, regardless of the prior key state;
and for any runtime momentum coefficient β ≠ 0, the program trace contains
exactly one β = 0 momentum update, and it is the very first event — the
initialisation call at src/train.py line 121, before any training step. -/
theorem momentum_beta_zero_exact_copy (ι α : Type) (θq θk : ι → ℚ) (cap : Nat)
    (β : ℚ) (lossOf : Nat → ℚ) (ebs : List (List (List α))) (hβ : β ≠ 0) :
    momentum_update θq θk 0 = θq ∧
    (programTrace (α := α) cap β lossOf ebs).head? = some (Event.momentum 0) ∧
    (programTrace (α := α) cap β lossOf ebs).count (Event.momentum 0) = 1 := by
  refine ⟨?_, rfl, ?_⟩
  · funext i
    simp [momentum_update]
  · rw [programTrace, List.count_cons]
    have hnot : Event.momentum 0 ∉
        (ebs.map fun bs => epochEvents (α := α) cap β lossOf (epochStart α) 0 bs).flatten := by
      intro hmem
      rw [List.mem_flatten] at hmem
      obtain ⟨l, hl, hml⟩ := hmem
      rw [List.mem_map] at hl
      obtain ⟨bs, _, rfl⟩ := hl
      exact hβ ((epoch_momentum_values cap β lossOf bs (epochStart α) 0 0 hml).symm)
    rw [List.count_eq_zero.mpr hnot]
    simp

/-- C7 witness: with runtime coefficient 999/1000 and one epoch of one batch,
the β = 0 update copies the query parameters and appears exactly once, first. -/
theorem momentum_beta_zero_exact_copy_w :
    momentum_update (fun _ : Nat => (3 : ℚ)) (fun _ => 5) 0 = (fun _ => 3) ∧
    (programTrace (α := Nat) 2 (999/1000) (fun _ => 0) [[[1]]]).head? =
      some (Event.momentum 0) ∧
    (programTrace (α := Nat) 2 (999/1000) (fun _ => 0) [[[1]]]).count
      (Event.momentum 0) = 1 :=
  momentum_beta_zero_exact_copy Nat Nat (fun _ => 3) (fun _ => 5) 2 (999/1000)
    (fun _ => 0) [[[1]]] (by norm_num)

/-- The claim of C8 fails: no configuration-time validation exists.  The
argument parser (src/train.py lines 97-109) accepts the non-positive
dictionary size -5 without rejection, and with a capacity of 0 a full
loss-producing training step runs and the epoch returns a value. -/
theorem config_not_rejected :
    makeConfig 256 200 128 (-5) = Except.ok ⟨256, 200, 128, -5⟩ ∧
    trainEpoch 0 (1/2 : ℚ) (fun _ => 0) [[(1 : Nat)]] = some 0 := by
  refine ⟨rfl, ?_⟩
  simp [trainEpoch, runSteps, trainStep, dequeue_data, queue_data, epochStart]

/-- C8 as amended: the configuration stage performs no validation at all —
every integer dictionary size, including non-positive ones, is accepted as
given — and the temperature is never checked; it is always the positive
default 0.07 since no caller of `train` passes another value. -/
theorem config_never_rejected :
    (∀ b e f d : Int, makeConfig b e f d = Except.ok ⟨b, e, f, d⟩) ∧
    0 < train_temp_default :=
  ⟨fun _ _ _ _ => rfl, by norm_num [train_temp_default]⟩

noncomputable section Loss

/-- Inner product of two feature rows of dimension `D`. -/
def dot {D : Nat} (x y : Fin D → ℝ) : ℝ :=
  ∑ d, x d * y d

/-- The positive logits (src/train.py line 46):
`torch.bmm(q.view(N, 1, -1), k.view(N, -1, 1))` — per example `i`, the inner
product of `q[i]` with `k[i]`. -/
def l_pos {N D : Nat} (q k : Fin N → Fin D → ℝ) : Fin N → ℝ :=
  fun i => dot (q i) (k i)

/-- The negative logits (src/train.py line 47): `torch.mm(q, queue.t())` —
entry `(i, c)` is the inner product of `q[i]` with queue row `c`. -/
def l_neg {N C D : Nat} (q : Fin N → Fin D → ℝ) (queue : Fin C → Fin D → ℝ) :
    Fin N → Fin C → ℝ :=
  fun i c => dot (q i) (queue c)

/-- The concatenated logits (src/train.py line 49):
`torch.cat([l_pos.view(N, 1), l_neg], dim=-1)` — per example, column 0 holds
the positive logit and column `c + 1` the `c`-th negative logit. -/
def logits {N C D : Nat} (q k : Fin N → Fin D → ℝ)
    (queue : Fin C → Fin D → ℝ) : Fin N → Fin (C + 1) → ℝ :=
  fun i => Fin.cases (l_pos q k i) (fun c => l_neg q queue i c)

/-- The labels (src/train.py line 50): `torch.zeros(N, dtype=torch.long)` —
class index 0 for every example. -/
def labels (N C : Nat) : Fin N → Fin (C + 1) :=
  fun _ => 0

/-- `nn.CrossEntropyLoss()` with its default mean reduction (src/train.py
line 125, applied at line 51): per example, log of the sum of exponentials of
the row minus the entry at the label; then the mean over the batch. -/
def cross_entropy_loss {N M : Nat} (z : Fin N → Fin (M + 1) → ℝ)
    (lab : Fin N → Fin (M + 1)) : ℝ :=
  (∑ i, (Real.log (∑ j, Real.exp (z i j)) - z i (lab i))) / N

/-- The loss of one ready step (src/train.py line 51):
`cross_entropy_loss(logits / temp, labels)` — every logit entry is divided by
the temperature before the loss. -/
def sourceLoss {N C D : Nat} (q k : Fin N → Fin D → ℝ)
    (queue : Fin C → Fin D → ℝ) (temp : ℝ) : ℝ :=
  cross_entropy_loss (fun i j => logits q k queue i j / temp) (labels N C)

/-- Written from the spec wording of claim C4 (for comparison with
`sourceLoss`): per example `i`, the row `[dot(Q[i], K[i])]` followed by
`Q[i] · M^T`, the positive logit first. -/
def specRow {N C D : Nat} (q k : Fin N → Fin D → ℝ)
    (queue : Fin C → Fin D → ℝ) (i : Fin N) : List ℝ :=
  dot (q i) (k i) :: List.ofFn (fun c => dot (q i) (queue c))

/-- Written from the spec wording of claim C4: cross-entropy of one row with
correct-class index 0 — log-sum-exp of the row minus its first entry. -/
def specRowCE (row : List ℝ) : ℝ :=
  Real.log ((row.map Real.exp).sum) - row.headD 0

/-- Written from the spec wording of claim C4: divide every entry of every
row by τ, take the cross-entropy of each row at class 0, and reduce by the
mean over the batch. -/
def specLoss {N C D : Nat} (q k : Fin N → Fin D → ℝ)
    (queue : Fin C → Fin D → ℝ) (τ : ℝ) : ℝ :=
  (∑ i, specRowCE ((specRow q k queue i).map (· / τ))) / N

end Loss

/-- C4: the loss of a ready step is computed exactly as the spec describes —
per example the row of length 1 + C with the positive logit
`dot(Q[i], K[i])` first followed by the C negative logits `Q[i] · M^T`, every
entry divided by the temperature before the cross-entropy, with correct-class
index 0 for every example, reduced by the mean over the batch. -/
theorem loss_matches_spec (N C D : Nat) (q k : Fin N → Fin D → ℝ)
    (queue : Fin C → Fin D → ℝ) (τ : ℝ) :
    sourceLoss q k queue τ = specLoss q k queue τ ∧
    (∀ i, (specRow q k queue i).length = 1 + C) ∧
    (∀ i, labels N C i = 0) := by
  refine ⟨?_, ?_, fun _ => rfl⟩
  · unfold sourceLoss specLoss cross_entropy_loss specRowCE
    congr 1
    refine Finset.sum_congr rfl fun i _ => ?_
    rw [specRow]
    simp only [List.map_cons, List.map_ofFn, List.sum_cons, List.sum_ofFn,
      List.headD_cons, Function.comp, labels]
    rw [Fin.sum_univ_succ]
    simp [logits, l_pos, l_neg]
  · intro i
    rw [specRow, List.length_cons, List.length_ofFn]
    omega

/-- `torch.Tensor.index_copy_(0, idx, src)` on a 1-D tensor
(src/train.py line 24): for each position `t` in order, write `src[t]` into
the accumulated list at position `idx[t]`. -/
def index_copy (base idx src : List Nat) : List Nat :=
  (idx.zip src).foldl (fun acc p => acc.set p.1 p.2) base

/-- `get_shuffle_idx` (src/train.py lines 19-25).  `torch.randperm(num_data)`
draws from an external randomness source, so the permutation it returns is
taken as the argument `shuffle_value`; `reverse_idx` starts as zeros
(line 22) and `index_copy_(0, shuffle_value, arange(num_data))`
(lines 23-24) writes `t` at position `shuffle_value[t]`. -/
def get_shuffle_idx (num_data : Nat) (shuffle_value : List Nat) :
    List Nat × List Nat :=
  (shuffle_value,
    index_copy (List.replicate num_data 0) shuffle_value (List.range num_data))

/-- Indexing a batch by an index tensor, `x[idx]` (src/train.py lines 41
and 43): entry `i` of the result is `x[idx[i]]`. -/
def reorder {α : Type} [Inhabited α] (xs : List α) (idx : List Nat) : List α :=
  idx.map fun j => xs.getD j default

theorem foldl_set_length :
    ∀ (ps : List (Nat × Nat)) (base : List Nat),
      (ps.foldl (fun acc p => acc.set p.1 p.2) base).length = base.length
  | [], _ => rfl
  | p :: ps, base => by
      rw [List.foldl_cons, foldl_set_length ps, List.length_set]

theorem foldl_set_getD_of_not_mem :
    ∀ (ps : List (Nat × Nat)) (base : List Nat) (a : Nat),
      (∀ p ∈ ps, p.1 ≠ a) →
      (ps.foldl (fun acc p => acc.set p.1 p.2) base).getD a 0 = base.getD a 0
  | [], _, _, _ => rfl
  | p :: ps, base, a, h => by
      rw [List.foldl_cons,
        foldl_set_getD_of_not_mem ps _ a
          (fun q hq => h q (List.mem_cons_of_mem _ hq)),
        List.getD_eq_getElem?_getD, List.getD_eq_getElem?_getD,
        List.getElem?_set_ne (h p (List.mem_cons_self _ _))]

theorem foldl_set_getD_of_mem :
    ∀ (ps : List (Nat × Nat)) (base : List Nat),
      (ps.map Prod.fst).Nodup →
      ∀ p ∈ ps, p.1 < base.length →
      (ps.foldl (fun acc p => acc.set p.1 p.2) base).getD p.1 0 = p.2
  | [], _, _, p, hp, _ => absurd hp (List.not_mem_nil p)
  | q :: ps, base, hnodup, p, hp, hlt => by
      have hnodup' : (ps.map Prod.fst).Nodup := by
        simp only [List.map_cons, List.nodup_cons] at hnodup
        exact hnodup.2
      have hqnot : q.1 ∉ ps.map Prod.fst := by
        simp only [List.map_cons, List.nodup_cons] at hnodup
        exact hnodup.1
      rw [List.foldl_cons]
      rcases List.mem_cons.mp hp with rfl | hp'
      · have hne : ∀ r ∈ ps, r.1 ≠ p.1 := by
          intro r hr he
          exact hqnot (he ▸ List.mem_map_of_mem Prod.fst hr)
        rw [foldl_set_getD_of_not_mem ps _ p.1 hne,
          List.getD_eq_getElem?_getD, List.getElem?_set_self hlt]
        rfl
      · exact foldl_set_getD_of_mem ps (base.set q.1 q.2) hnodup' p hp'
          (by rw [List.length_set]; exact hlt)

theorem index_copy_inverse (n : Nat) (sv : List Nat)
    (hp : sv.Perm (List.range n)) :
    ∀ i, i < n →
      ((get_shuffle_idx n sv).2).getD (sv.getD i 0) 0 = i := by
  have hlen : sv.length = n := by rw [hp.length_eq, List.length_range]
  have hnodup : sv.Nodup := hp.nodup_iff.mpr (List.nodup_range n)
  intro i hi
  have hi' : i < sv.length := by omega
  have hzlen : i < (sv.zip (List.range n)).length := by
    rw [List.length_zip, List.length_range]
    omega
  have hir : i < (List.range n).length := by
    rw [List.length_range]
    omega
  have hpair : (sv.zip (List.range n))[i] = (sv[i], (List.range n)[i]) :=
    List.getElem_zip
  have hmem : (sv[i], i) ∈ sv.zip (List.range n) := by
    have hm := List.getElem_mem hzlen
    rw [hpair, List.getElem_range] at hm
    exact hm
  have hfst : ((sv.zip (List.range n)).map Prod.fst).Nodup := by
    rw [List.map_fst_zip sv (List.range n) (by rw [List.length_range]; omega)]
    exact hnodup
  have hvlt : sv[i] < (List.replicate n 0).length := by
    rw [List.length_replicate]
    have hms : sv[i] ∈ sv := List.getElem_mem hi'
    exact List.mem_range.mp (hp.mem_iff.mp hms)
  have h := foldl_set_getD_of_mem (sv.zip (List.range n))
    (List.replicate n 0) hfst (sv[i], i) hmem hvlt
  rw [List.getD_eq_getElem sv 0 hi']
  exact h

/-- C3: for every batch size `N` and every permutation `shuffle` of
`{0, ..., N-1}` supplied by `torch.randperm`, the pair
`(shuffle, reverse) = get_shuffle_idx N shuffle` satisfies
`reverse[shuffle[i]] = i` for every `i < N`, and reordering any batch of
length `N` by `shuffle` then reordering the result by `reverse` restores the
original batch exactly. -/
theorem get_shuffle_idx_inverse (n : Nat) (sv : List Nat)
    (hp : sv.Perm (List.range n)) :
    (∀ i, i < n →
      ((get_shuffle_idx n sv).2).getD (((get_shuffle_idx n sv).1).getD i 0) 0 = i) ∧
    (∀ (α : Type) (_ : Inhabited α) (xs : List α), xs.length = n →
      reorder (reorder xs (get_shuffle_idx n sv).1) (get_shuffle_idx n sv).2 = xs) := by
  have hlen : sv.length = n := by rw [hp.length_eq, List.length_range]
  have hrevlen : ((get_shuffle_idx n sv).2).length = n := by
    show (index_copy _ _ _).length = n
    rw [index_copy, foldl_set_length, List.length_replicate]
  refine ⟨index_copy_inverse n sv hp, ?_⟩
  intro α inst xs hxs
  apply List.ext_get
  · show ((get_shuffle_idx n sv).2.map _).length = xs.length
    rw [List.length_map, hrevlen, hxs]
  intro i h1 h2
  have hi : i < n := by
    rw [← hxs]
    exact h2
  have himem : i ∈ sv := hp.mem_iff.mpr (List.mem_range.mpr hi)
  obtain ⟨t, ht⟩ := List.mem_iff_get.mp himem
  have htv : sv.getD t 0 = i := by
    rw [List.getD_eq_getElem sv 0 t.isLt, ← ht]
    rfl
  have hrev : ((get_shuffle_idx n sv).2).getD i 0 = t := by
    have h := index_copy_inverse n sv hp t (by omega)
    rw [htv] at h
    exact h
  have hi2 : i < ((get_shuffle_idx n sv).2).length := by omega
  show ((get_shuffle_idx n sv).2.map fun j => (reorder xs sv).getD j default).get ⟨i, h1⟩ = _
  rw [List.get_eq_getElem, List.getElem_map, List.get_eq_getElem,
    ← List.getD_eq_getElem ((get_shuffle_idx n sv).2) 0 hi2, hrev]
  have htlt : (t : Nat) < sv.length := t.isLt
  rw [reorder, List.getD_eq_getElem (sv.map fun j => xs.getD j default) default
    (by rw [List.length_map]; exact htlt), List.getElem_map]
  have hsvt : sv[(t : Nat)] = i := by
    rw [← List.getD_eq_getElem sv 0 htlt]
    exact htv
  rw [hsvt, List.getD_eq_getElem xs default (by omega)]

/-- C3 witness: batch size 3 with the permutation [2, 0, 1];
`reverse[shuffle[1]] = 1`, and shuffling then unshuffling the batch
[10, 20, 30] restores it. -/
theorem get_shuffle_idx_inverse_w :
    ((get_shuffle_idx 3 [2, 0, 1]).2).getD
      (((get_shuffle_idx 3 [2, 0, 1]).1).getD 1 0) 0 = 1 ∧
    reorder (reorder [10, 20, 30] (get_shuffle_idx 3 [2, 0, 1]).1)
      (get_shuffle_idx 3 [2, 0, 1]).2 = [10, 20, 30] :=
  ⟨(get_shuffle_idx_inverse 3 [2, 0, 1] (by decide)).1 1 (by decide),
    (get_shuffle_idx_inverse 3 [2, 0, 1] (by decide)).2 Nat inferInstance
      [10, 20, 30] (by decide)⟩

end MoCo
